import Mathlib

set_option maxRecDepth 20000

namespace AlgoGen

/-! Shallow embedding of the ALGO-GEN genetic-algorithm core.

Machine integers are modelled as Int/Nat and Python floats as exact
rationals; Python's global random module is modelled as a pair of explicit
entropy streams with read positions, and every stochastic primitive
consumes from them.  Python functions that can raise are embedded as
Option- or Except-valued functions. -/

/-- Problem description: declared size plus target vector (class Instance
of core_functions/instance.py).  The field name inst-size/data mirrors
self.size/self.data; the Python attribute instance is called inst here
because instance is reserved in Lean. -/
structure Instance where
  size : Nat
  data : List Int
deriving DecidableEq

/-- Candidate solution (class Individual of core_functions/instance.py):
chromosome plus cost and fitness, both None until evaluated. -/
structure Individual where
  chromosome : List Int
  cost : Option Nat
  fitness : Option ℚ
deriving DecidableEq

instance : Inhabited Individual := ⟨⟨[], none, none⟩⟩

/-- Deterministic stand-in for Python's global random module: an entropy
stream of naturals for integer draws, a stream of rationals for
random.random style draws, and the positions already consumed. -/
structure RState where
  ints : Nat → Nat
  floats : Nat → ℚ
  ii : Nat
  fi : Nat

/-- Consume one value of the integer entropy stream. -/
def nextNat (r : RState) : Nat × RState :=
  (r.ints r.ii, ⟨r.ints, r.floats, r.ii + 1, r.fi⟩)

/-- Consume one value of the unit-interval entropy stream
(random.random()). -/
def nextFloat (r : RState) : ℚ × RState :=
  (r.floats r.fi, ⟨r.ints, r.floats, r.ii, r.fi + 1⟩)

/-- Model of random.randint lo hi on naturals: a value of [lo, hi]; fails
(Python ValueError) when hi < lo. -/
def randNat (r : RState) (lo hi : Nat) : Option (Nat × RState) :=
  if hi < lo then none
  else
    let p := nextNat r
    some (lo + p.1 % (hi - lo + 1), p.2)

/-- Model of random.randint lo hi on integers: a value of [lo, hi]; fails
(Python ValueError) when hi < lo. -/
def randInt (r : RState) (lo hi : Int) : Option (Int × RState) :=
  if hi < lo then none
  else
    let p := nextNat r
    some (lo + (p.1 : Int) % (hi - lo + 1), p.2)

/-- Model of random.uniform 0 total: a point of [0, total] obtained by
scaling one unit draw. -/
def uniformQ (r : RState) (total : ℚ) : ℚ × RState :=
  let p := nextFloat r
  (total * p.1, p.2)

/-- Embeds compute_cost of core_functions/fitness.py: the sum of absolute
gene-target differences over zip, which silently truncates to the shorter
of chromosome and data. -/
def compute_cost (ind : Individual) (inst : Instance) : Nat :=
  (List.zipWith (fun g t => (g - t).natAbs) ind.chromosome inst.data).sum

/-- Embeds fitness of core_functions/fitness.py: writes cost and
fitness = 1 / (1 + cost) onto the individual.  The Python function
mutates the individual in place and returns the fitness value; the
embedding returns the updated individual. -/
def fitness (ind : Individual) (inst : Instance) : Individual :=
  ⟨ind.chromosome, some (compute_cost ind inst),
    some (1 / (1 + (compute_cost ind inst : ℚ)))⟩

/-- Fitness attribute read as the engine performs it after evaluation
(unevaluated individuals never occur inside engine runs). -/
def fitKey (ind : Individual) : ℚ := ind.fitness.getD 0

/-- Model of Python max(list, key=f): the first element attaining the
maximal key; fails (ValueError) on an empty list. -/
def pythonMax (key : Individual → ℚ) : List Individual → Option Individual
  | [] => none
  | x :: xs => some (xs.foldl (fun b a => if key b < key a then a else b) x)

/-- Recursive part of the random.sample model: repeatedly pick an index
into the not-yet-chosen elements and remove the element picked. -/
def sampleGo {α : Type} : List α → Nat → RState → Option (List α × RState)
  | _, 0, r => some ([], r)
  | [], _ + 1, _ => none
  | a :: as, k + 1, r =>
    let p := nextNat r
    let idx := p.1 % (a :: as).length
    let x := (a :: as).getD idx a
    (sampleGo ((a :: as).eraseIdx idx) k p.2).map fun q => (x :: q.1, q.2)

/-- Model of random.sample(l, k): fails (ValueError) when k exceeds the
population size, otherwise k distinct elements drawn without
replacement. -/
def sampleDistinct {α : Type} (l : List α) (k : Nat) (r : RState) :
    Option (List α × RState) :=
  if l.length < k then none else sampleGo l k r

/-- Cumulative-fitness walk of roulette_selection of
core_functions/Selection.py: returns the first individual whose running
total reaches the pick; Python falls off the loop returning None when no
prefix reaches it. -/
def rouletteWalk : List Individual → ℚ → ℚ → Option Individual
  | [], _, _ => none
  | x :: xs, current, pick =>
    let current' := current + fitKey x
    if pick ≤ current' then some x else rouletteWalk xs current' pick

/-- Embeds roulette_selection of core_functions/Selection.py: no
validation of the fitness values; one pick uniform in [0, total] and a
cumulative walk. -/
def roulette_selection (population : List Individual) (r : RState) :
    Option Individual × RState :=
  let total := (population.map fitKey).sum
  let p := uniformQ r total
  (rouletteWalk population 0 p.1, p.2)

/-- Embeds tournament_selection of core_functions/Selection.py:
random.sample draws k distinct individuals (failing when k exceeds the
population size), then Python max by fitness. -/
def tournament_selection (population : List Individual) (k : Nat) (r : RState) :
    Option (Individual × RState) :=
  (sampleDistinct population k r).bind fun p =>
    (pythonMax fitKey p.1).map fun m => (m, p.2)

/-- Challenger loop of tournament_selection of Algorithms/Tournament.py:
k - 1 further uniform index draws, keeping the index of strictly larger
score. -/
def tpLoop (scores : List ℚ) (n : Nat) : Nat → Nat → RState → Nat × RState
  | 0, sel, r => (sel, r)
  | t + 1, sel, r =>
    let p := nextNat r
    let ix := p.1 % n
    tpLoop scores n t (if scores.getD sel 0 < scores.getD ix 0 then ix else sel) p.2

/-- Embeds tournament_selection of Algorithms/Tournament.py: draws with
replacement (a first uniform index plus k - 1 challengers); fails on an
empty population, where randint(0, -1) raises. -/
def tournament_selection_scores {α : Type} [Inhabited α]
    (population : List α) (scores : List ℚ) (k : Nat) (r : RState) :
    Option (α × RState) :=
  if population.isEmpty then none
  else
    let p0 := nextNat r
    let q := tpLoop scores population.length (k - 1) (p0.1 % population.length) p0.2
    some (population.getD q.1 default, q.2)

/-- Count of cumulative-weight prefixes not exceeding the target: the
bisect step of random.choices over the (sorted, since weights are
non-negative) cumulative weights. -/
def countCumLE : List ℚ → ℚ → ℚ → Nat
  | [], _, _ => 0
  | s :: ss, acc, t => if acc + s ≤ t then countCumLE ss (acc + s) t + 1 else 0

/-- One index draw of random.choices: bisect the cumulative weights at a
uniform point of [0, total], clamped to the last index. -/
def choicesIdx (scores : List ℚ) (total u : ℚ) : Nat :=
  min (countCumLE scores 0 (total * u)) (scores.length - 1)

/-- The k independent draws of random.choices. -/
def choicesGo {α : Type} [Inhabited α] (population : List α) (scores : List ℚ)
    (total : ℚ) : Nat → RState → List α × RState
  | 0, r => ([], r)
  | n + 1, r =>
    let p := nextFloat r
    let q := choicesGo population scores total n p.2
    (population.getD (choicesIdx scores total p.1) default :: q.1, q.2)

/-- Embeds roulette_selection of Algorithms/roulette.py: rejects negative
weights with a ValueError, then delegates to random.choices, which itself
rejects a weight count different from the population size and a
non-positive total weight. -/
def roulette_selection_bulk {α : Type} [Inhabited α] (population : List α)
    (fitness_scores : List ℚ) (num_parents : Nat) (r : RState) :
    Except String (List α × RState) :=
  if fitness_scores.any (fun f => f < 0) then
    Except.error "Fitness scores must be non-negative for roulette selection."
  else if fitness_scores.length ≠ population.length then
    Except.error "The number of weights does not match the population"
  else if fitness_scores.sum ≤ 0 then
    Except.error "Total of weights must be greater than zero"
  else
    Except.ok (choicesGo population fitness_scores fitness_scores.sum num_parents r)

/-- Embeds one_point of core_functions/crossover.py: equal lengths
asserted, one cut point uniform in [1, length - 1] (randint fails when the
length is below 2), prefix and suffix exchanged. -/
def one_point (parent1 parent2 : List Int) (r : RState) :
    Option ((List Int × List Int) × RState) :=
  if parent1.length ≠ parent2.length then none
  else
    (randNat r 1 (parent1.length - 1)).map fun p =>
      ((parent1.take p.1 ++ parent2.drop p.1,
        parent2.take p.1 ++ parent1.drop p.1), p.2)

/-- Per-position coin flips of the uniform crossover, in gene order. -/
def uniformGo : List (Int × Int) → RState → (List Int × List Int) × RState
  | [], r => (([], []), r)
  | g :: rest, r =>
    let p := nextFloat r
    let q := uniformGo rest p.2
    (if p.1 < 1 / 2 then (g.1 :: q.1.1, g.2 :: q.1.2)
     else (g.2 :: q.1.1, g.1 :: q.1.2), q.2)

/-- Embeds uniform of core_functions/crossover.py: one independent coin
flip per gene position decides which child receives which parent gene. -/
def uniform (parent1 parent2 : List Int) (r : RState) :
    Option ((List Int × List Int) × RState) :=
  if parent1.length ≠ parent2.length then none
  else some (uniformGo (parent1.zip parent2) r)

/-- Simultaneous Python two-position exchange
child[i], child[j] = child[j], child[i] (both reads happen before the
writes). -/
def swapAt (l : List Int) (i j : Nat) : List Int :=
  (l.set i (l.getD j 0)).set j (l.getD i 0)

/-- Embeds swap of core_functions/mutation.py: two distinct sampled
positions, values exchanged on a copy. -/
def swap (chromosome : List Int) (r : RState) : Option (List Int × RState) :=
  (sampleDistinct (List.range chromosome.length) 2 r).bind fun p =>
    match p.1 with
    | [i, j] => some (swapAt chromosome i j, p.2)
    | _ => none

/-- Embeds inversion of core_functions/mutation.py: the slice between the
two sorted sampled positions is reversed on a copy. -/
def inversion (chromosome : List Int) (r : RState) : Option (List Int × RState) :=
  (sampleDistinct (List.range chromosome.length) 2 r).bind fun p =>
    match p.1 with
    | [a, b] =>
      some (chromosome.take (min a b) ++
        ((chromosome.drop (min a b)).take (max a b - min a b)).reverse ++
        chromosome.drop (max a b), p.2)
    | _ => none

/-- Embeds random_reset of core_functions/mutation.py: one uniform
position receives one uniform value of [min_val, max_val]; the fresh
value may coincide with the old one. -/
def random_reset (chromosome : List Int) (min_val max_val : Int) (r : RState) :
    Option (List Int × RState) :=
  if chromosome.length = 0 then none
  else
    (randNat r 0 (chromosome.length - 1)).bind fun p =>
      (randInt p.2 min_val max_val).bind fun q =>
        some (chromosome.set p.1 q.1, q.2)

/-- Engine configuration and per-run history state (class
GeneticAlgorithm of Algorithms/genetic_algorithm.py): the constructor
stores the numeric parameters, resolves the crossover and mutation
operators, keeps the selection operator name for dispatch at call time
and creates four empty history lists.  Wall-clock timing is not
modelled. -/
structure GeneticAlgorithm where
  inst : Instance
  pop_size : Nat
  crossover_rate : ℚ
  mutation_rate : ℚ
  max_generations : Nat
  tournament_k : Nat
  crossover_fn : List Int → List Int → RState → Option ((List Int × List Int) × RState)
  mutation_fn : List Int → RState → Option (List Int × RState)
  selection_op : String
  best_fitness_history : List (Option ℚ)
  avg_fitness_history : List ℚ
  best_cost_history : List (Option Nat)
  diversity_history : List ℚ

/-- Embeds GeneticAlgorithm.__init__: every parameter is stored exactly
as given and no validation of any kind is performed.  A crossover name
other than one_point resolves to uniform; a mutation name other than swap
and inversion resolves to random_reset bound to [0, max(instance.data)],
the bound being evaluated at call time inside the stored closure; any
selection name other than roulette means tournament.  Python defaults:
pop_size 100, crossover_rate 0.8, mutation_rate 0.2, max_generations
1000, one_point, swap, tournament, tournament_k 3. -/
def GeneticAlgorithm.init (inst : Instance) (pop_size : Nat)
    (crossover_rate mutation_rate : ℚ) (max_generations : Nat)
    (crossover_op mutation_op selection_op : String) (tournament_k : Nat) :
    GeneticAlgorithm :=
  ⟨inst, pop_size, crossover_rate, mutation_rate, max_generations, tournament_k,
    (if crossover_op = "one_point" then one_point else uniform),
    (if mutation_op = "swap" then swap
     else if mutation_op = "inversion" then inversion
     else fun chrom r => (inst.data.max?).bind fun m => random_reset chrom 0 m r),
    selection_op, [], [], [], []⟩

/-- Genes of one random chromosome of initialize_population: each gene
uniform in [0, max(instance.data)]; Python max raises on an empty data
list. -/
def gen_chromosome (data : List Int) : Nat → RState → Option (List Int × RState)
  | 0, r => some ([], r)
  | n + 1, r =>
    (data.max?).bind fun m =>
      (randInt r 0 m).bind fun p =>
        (gen_chromosome data n p.2).map fun q => (p.1 :: q.1, q.2)

/-- Embeds GeneticAlgorithm.initialize_population: pop_size random
chromosomes of instance.size genes, each individual evaluated on
creation. -/
def init_population (ga : GeneticAlgorithm) :
    Nat → RState → Option (List Individual × RState)
  | 0, r => some ([], r)
  | n + 1, r =>
    (gen_chromosome ga.inst.data ga.inst.size r).bind fun p =>
      (init_population ga n p.2).map fun q =>
        (fitness ⟨p.1, none, none⟩ ga.inst :: q.1, q.2)

/-- Embeds GeneticAlgorithm.select_parent.  A roulette draw that falls
through (Python None) is a failure of the caller, which immediately reads
the returned parent's chromosome. -/
def select_parent (ga : GeneticAlgorithm) (population : List Individual)
    (r : RState) : Option (Individual × RState) :=
  if ga.selection_op = "roulette" then
    match roulette_selection population r with
    | (some ind, r') => some (ind, r')
    | (none, _) => none
  else tournament_selection population ga.tournament_k r

/-- Fraction of differing gene positions of two chromosomes: zip
truncates to the shorter chromosome and the denominator is the first
chromosome's length. -/
def hammingFrac (c1 c2 : List Int) : ℚ :=
  (((List.zipWith (fun g1 g2 => if g1 ≠ g2 then 1 else 0) c1 c2).sum : ℕ) : ℚ) /
    (c1.length : ℚ)

/-- Mean of a list of rationals (statistics.mean; the callers below never
apply it to an empty list). -/
def meanQ (l : List ℚ) : ℚ := l.sum / (l.length : ℚ)

/-- Embeds GeneticAlgorithm.calculate_diversity: i runs over the first
min(20, n) individuals and j over range(i + 1, min(i + sample_size, n))
with sample_size = min(10, n - 1); the result is the mean of the sampled
pairwise distances, or 0 when fewer than two individuals exist or no pair
was sampled. -/
def calculate_diversity (population : List Individual) : ℚ :=
  if population.length < 2 then 0
  else
    let sample_size := min 10 (population.length - 1)
    let differences := (List.range (min 20 population.length)).flatMap fun i =>
      (List.range' (i + 1) (min (i + sample_size) population.length - (i + 1))).map
        fun j =>
          hammingFrac (population.getD i default).chromosome
            (population.getD j default).chromosome
    if differences.isEmpty then 0 else meanQ differences

/-- The diversity computation as claim C9 words it: every individual i
among the first min(20, n) is compared against the next min(10, n - 1)
individuals (those that exist).  Stated for comparison with
calculate_diversity. -/
def diversity_claimed (population : List Individual) : ℚ :=
  if population.length < 2 then 0
  else
    let differences := (List.range (min 20 population.length)).flatMap fun i =>
      ((List.range' (i + 1) (min 10 (population.length - 1))).filter
        (fun j => j < population.length)).map
        fun j =>
          hammingFrac (population.getD i default).chromosome
            (population.getD j default).chromosome
    if differences.isEmpty then 0 else meanQ differences

/-- The diversity computation with the claim's pair ranges corrected to
the source: individual i is compared against the next
min(10, n - 1) - 1 individuals (those that exist). -/
def diversity_amended_spec (population : List Individual) : ℚ :=
  if population.length < 2 then 0
  else
    let differences := (List.range (min 20 population.length)).flatMap fun i =>
      ((List.range' (i + 1) (min 10 (population.length - 1) - 1)).filter
        (fun j => j < population.length)).map
        fun j =>
          hammingFrac (population.getD i default).chromosome
            (population.getD j default).chromosome
    if differences.isEmpty then 0 else meanQ differences

/-- Mutable loop state of GeneticAlgorithm.run: current population,
incumbent best, stagnation counter and the four histories. -/
structure LoopState where
  population : List Individual
  best : Individual
  stag : Nat
  bestFitH : List (Option ℚ)
  avgFitH : List ℚ
  bestCostH : List (Option Nat)
  divH : List ℚ

/-- One iteration of the offspring loop of GeneticAlgorithm.run: select
two parents, apply crossover with probability crossover_rate (otherwise
copy the parent chromosomes), apply the mutation operator to each child
chromosome independently with probability mutation_rate, then evaluate
both children. -/
def pairStep (ga : GeneticAlgorithm) (population : List Individual) (r : RState) :
    Option ((Individual × Individual) × RState) :=
  (select_parent ga population r).bind fun p1 =>
  (select_parent ga population p1.2).bind fun p2 =>
  let c := nextFloat p2.2
  (if c.1 < ga.crossover_rate then
      ga.crossover_fn p1.1.chromosome p2.1.chromosome c.2
    else some ((p1.1.chromosome, p2.1.chromosome), c.2)).bind fun pc =>
  let m1c := nextFloat pc.2
  (if m1c.1 < ga.mutation_rate then ga.mutation_fn pc.1.1 m1c.2
    else some (pc.1.1, m1c.2)).bind fun m1 =>
  let m2c := nextFloat m1.2
  (if m2c.1 < ga.mutation_rate then ga.mutation_fn pc.1.2 m2c.2
    else some (pc.1.2, m2c.2)).bind fun m2 =>
  some ((fitness ⟨m1.1, none, none⟩ ga.inst,
    fitness ⟨m2.1, none, none⟩ ga.inst), m2.2)

/-- Offspring loop of GeneticAlgorithm.run: while the new population is
short of pop_size, append the next two children.  The fuel argument only
bounds the recursion; pop_size iterations always suffice because every
iteration appends two individuals. -/
def buildOffspring (ga : GeneticAlgorithm) (population : List Individual) :
    Nat → List Individual → RState → Option (List Individual × RState)
  | 0, newPop, r => if newPop.length < ga.pop_size then none else some (newPop, r)
  | fuel + 1, newPop, r =>
    if newPop.length < ga.pop_size then
      (pairStep ga population r).bind fun p =>
        buildOffspring ga population fuel (newPop ++ [p.1.1, p.1.2]) p.2
    else some (newPop, r)

/-- One generation of GeneticAlgorithm.run: elitist insertion of the
incumbent best, offspring generation, truncation to pop_size, best update
by strict fitness comparison, stagnation bookkeeping and the four history
appends (statistics are recorded after the best update, before the
stagnation test). -/
def runStep (ga : GeneticAlgorithm) (s : LoopState) (r : RState) :
    Option (LoopState × RState) :=
  (buildOffspring ga s.population ga.pop_size [s.best] r).bind fun p =>
    let population := p.1.take ga.pop_size
    (pythonMax fitKey population).bind fun current_best =>
      let best := if fitKey s.best < fitKey current_best then current_best else s.best
      let stag := if fitKey s.best < fitKey current_best then 0 else s.stag + 1
      some (⟨population, best, stag,
        s.bestFitH ++ [best.fitness],
        s.avgFitH ++ [meanQ (population.map fitKey)],
        s.bestCostH ++ [best.cost],
        s.divH ++ [calculate_diversity population]⟩, p.2)

/-- Snapshot returned by GeneticAlgorithm.run; the execution_time entry
of the Python result dict is wall-clock time and is not modelled. -/
structure RunResult where
  best_individual : Individual
  best_chromosome : List Int
  best_cost : Option Nat
  best_fitness : Option ℚ
  generations : Nat
  best_fitness_history : List (Option ℚ)
  avg_fitness_history : List ℚ
  best_cost_history : List (Option Nat)
  diversity_history : List ℚ
deriving DecidableEq

/-- Result assembly of GeneticAlgorithm.run. -/
def mkResult (gen : Nat) (s : LoopState) : RunResult :=
  ⟨s.best, s.best.chromosome, s.best.cost, s.best.fitness, gen,
    s.bestFitH, s.avgFitH, s.bestCostH, s.divH⟩

/-- Main generational loop of GeneticAlgorithm.run: while
generation < max_generations (fuel is the number of remaining
generations), run one generation and stop early as soon as the stagnation
counter exceeds 200. -/
def runLoop (ga : GeneticAlgorithm) :
    Nat → Nat → LoopState → RState → Option RunResult
  | 0, gen, s, _ => some (mkResult gen s)
  | fuel + 1, gen, s, r =>
    (runStep ga s r).bind fun p =>
      if 200 < p.1.stag then some (mkResult (gen + 1) p.1)
      else runLoop ga fuel (gen + 1) p.1 p.2

/-- Embeds GeneticAlgorithm.run: initial population, initial best by
Python max over fitness, then the generational loop starting from the
histories stored on the engine object (empty after construction). -/
def run (ga : GeneticAlgorithm) (r : RState) : Option RunResult :=
  (init_population ga ga.pop_size r).bind fun p =>
    (pythonMax fitKey p.1).bind fun best =>
      runLoop ga ga.max_generations 0
        ⟨p.1, best, 0, ga.best_fitness_history, ga.avg_fitness_history,
          ga.best_cost_history, ga.diversity_history⟩ p.2

/-- An individual carrying a cost and exactly the fitness the evaluator
derives from it. -/
def Evaluated (ind : Individual) : Prop :=
  ∃ c : ℕ, ind.cost = some c ∧ ind.fitness = some (1 / (1 + (c : ℚ)))

/-- Cumulative fitness of the first m individuals of a population. -/
def cumFit (population : List Individual) (m : Nat) : ℚ :=
  ((population.take m).map fitKey).sum

/-- Entropy fixed to zeroes; concrete runs below are deterministic. -/
def r0 : RState := ⟨fun _ => 0, fun _ => 0, 0, 0⟩

/-- Size-one instance with target vector [0]. -/
def inst1 : Instance := ⟨1, [0]⟩

/-- Engine on inst1 with population size 1 and five generations. -/
def ga1 : GeneticAlgorithm :=
  GeneticAlgorithm.init inst1 1 (4/5) (1/5) 5 "one_point" "swap" "tournament" 3

/-- Engine on inst1 with population size 1 and 250 generations, enough
for the stagnation stop to fire first. -/
def ga2 : GeneticAlgorithm :=
  GeneticAlgorithm.init inst1 1 (4/5) (1/5) 250 "one_point" "swap" "tournament" 3

/-- The individual every generation of the ga1 and ga2 runs contains. -/
def ind1 : Individual := ⟨[0], some 0, some 1⟩

/-- The result of run ga1 r0, spelled out. -/
def res1 : RunResult :=
  ⟨ind1, [0], some 0, some 1, 5,
    List.replicate 5 (some 1), List.replicate 5 1,
    List.replicate 5 (some 0), List.replicate 5 0⟩

/-- Two-individual population with differing one-gene chromosomes, the
C9 counterexample input. -/
def pop2 : List Individual := [⟨[0], none, none⟩, ⟨[1], none, none⟩]

/-- Individual with a negative fitness attribute, for direct external use
of the selection operators. -/
def indNeg : Individual := ⟨[0], none, some (-1)⟩

/-- Individual with positive fitness attribute 2. -/
def indPos : Individual := ⟨[0], none, some 2⟩

/-- Three individuals sharing one identical chromosome. -/
def popSame : List Individual :=
  [⟨[3], none, none⟩, ⟨[3], none, none⟩, ⟨[3], none, none⟩]

/-! Helper lemmas -/

theorem zipWith_sum_eq_range_sum (f : Int → Int → ℕ) :
    ∀ (c d : List Int), (List.zipWith f c d).sum =
      ∑ i ∈ Finset.range (min c.length d.length), f (c.getD i 0) (d.getD i 0) := by
  intro c
  induction c with
  | nil => intro d; simp
  | cons a c ih =>
    intro d
    cases d with
    | nil => simp
    | cons b d =>
      simp only [List.zipWith_cons_cons, List.sum_cons, List.length_cons,
        Nat.succ_min_succ, Finset.sum_range_succ']
      rw [ih d]
      simp [Nat.add_comm]

theorem one_div_one_add_pos (c : ℕ) : 0 < 1 / (1 + (c : ℚ)) := by positivity

theorem one_div_one_add_le_one (c : ℕ) : 1 / (1 + (c : ℚ)) ≤ 1 := by
  rw [div_le_one (by positivity)]
  simp

theorem one_div_one_add_strict_anti {c1 c2 : ℕ} (h : c1 < c2) :
    1 / (1 + (c2 : ℚ)) < 1 / (1 + (c1 : ℚ)) := by
  apply one_div_lt_one_div_of_lt (by positivity)
  have : (c1 : ℚ) < (c2 : ℚ) := by exact_mod_cast h
  linarith

theorem one_div_one_add_eq_one_iff (c : ℕ) :
    1 / (1 + (c : ℚ)) = 1 ↔ c = 0 := by
  rw [div_eq_one_iff_eq (by positivity : (0:ℚ) < 1 + (c:ℚ)).ne']
  constructor
  · intro h
    have : (c : ℚ) = 0 := by linarith
    exact_mod_cast this
  · intro h; subst h; norm_num

/-! Claim theorems -/

/-- C2: for an individual and instance whose chromosome and data have
equal length, the evaluator writes onto the individual a cost equal to
the sum over all positions of the absolute gene-datum difference (a
natural number) and a fitness equal to 1 / (1 + cost); that fitness is
positive, at most 1, equal to 1 exactly when the cost is 0, and strictly
decreasing as the cost increases; the chromosome is unchanged. -/
theorem fitness_eval_spec (ind : Individual) (inst : Instance)
    (h : ind.chromosome.length = inst.data.length) :
    (fitness ind inst).chromosome = ind.chromosome ∧
    (fitness ind inst).cost =
      some (∑ i ∈ Finset.range inst.data.length,
        ((ind.chromosome.getD i 0) - (inst.data.getD i 0)).natAbs) ∧
    (fitness ind inst).fitness = some (1 / (1 + (compute_cost ind inst : ℚ))) ∧
    0 < 1 / (1 + (compute_cost ind inst : ℚ)) ∧
    1 / (1 + (compute_cost ind inst : ℚ)) ≤ 1 ∧
    (1 / (1 + (compute_cost ind inst : ℚ)) = 1 ↔ compute_cost ind inst = 0) ∧
    (∀ c1 c2 : ℕ, c1 < c2 → 1 / (1 + (c2 : ℚ)) < 1 / (1 + (c1 : ℚ))) := by
  refine ⟨rfl, ?_, rfl, one_div_one_add_pos _, one_div_one_add_le_one _,
    one_div_one_add_eq_one_iff _, fun c1 c2 hlt => one_div_one_add_strict_anti hlt⟩
  show some (compute_cost ind inst) = _
  rw [compute_cost, zipWith_sum_eq_range_sum, h, Nat.min_self]

/-- Witness for C2 at chromosome [3] against instance data [1]. -/
theorem fitness_eval_spec_witness :
    (fitness ⟨[3], none, none⟩ ⟨1, [1]⟩).chromosome = [3] ∧
    (fitness ⟨[3], none, none⟩ ⟨1, [1]⟩).cost =
      some (∑ i ∈ Finset.range ((⟨1, [1]⟩ : Instance).data.length),
        ((([3] : List Int).getD i 0) - (((⟨1, [1]⟩ : Instance).data).getD i 0)).natAbs) ∧
    (fitness ⟨[3], none, none⟩ ⟨1, [1]⟩).fitness =
      some (1 / (1 + (compute_cost ⟨[3], none, none⟩ ⟨1, [1]⟩ : ℚ))) ∧
    0 < 1 / (1 + (compute_cost ⟨[3], none, none⟩ ⟨1, [1]⟩ : ℚ)) ∧
    1 / (1 + (compute_cost ⟨[3], none, none⟩ ⟨1, [1]⟩ : ℚ)) ≤ 1 ∧
    (1 / (1 + (compute_cost ⟨[3], none, none⟩ ⟨1, [1]⟩ : ℚ)) = 1 ↔
      compute_cost ⟨[3], none, none⟩ ⟨1, [1]⟩ = 0) ∧
    (∀ c1 c2 : ℕ, c1 < c2 → 1 / (1 + (c2 : ℚ)) < 1 / (1 + (c1 : ℚ))) :=
  fitness_eval_spec ⟨[3], none, none⟩ ⟨1, [1]⟩ rfl

/-- C6 counterexample: evaluating a chromosome of length 2 against
instance data of length 1 does not fail with a length-mismatch error: it
returns an individual with cost 0 and fitness 1, computed over the
zip-truncated common prefix. -/
theorem fitness_mismatch_counterexample :
    (⟨[0, 0], none, none⟩ : Individual).chromosome.length ≠ inst1.data.length ∧
    fitness ⟨[0, 0], none, none⟩ inst1 = ⟨[0, 0], some 0, some 1⟩ := by
  constructor
  · decide
  · with_unfolding_all decide

/-- C6 amended: on any chromosome/data length mismatch the evaluator does
not fail; it returns cost equal to the sum of absolute differences over
the common prefix (zip truncation) and fitness 1 / (1 + cost). -/
theorem fitness_mismatch_amended (ind : Individual) (inst : Instance)
    (h : ind.chromosome.length ≠ inst.data.length) :
    (fitness ind inst).cost =
      some (∑ i ∈ Finset.range (min ind.chromosome.length inst.data.length),
        ((ind.chromosome.getD i 0) - (inst.data.getD i 0)).natAbs) ∧
    (fitness ind inst).fitness = some (1 / (1 + (compute_cost ind inst : ℚ))) := by
  refine ⟨?_, rfl⟩
  show some (compute_cost ind inst) = _
  rw [compute_cost, zipWith_sum_eq_range_sum]

/-- Witness for the C6 amended theorem at chromosome [0,0] against
instance data [0]. -/
theorem fitness_mismatch_amended_witness :
    (fitness ⟨[0, 0], none, none⟩ inst1).cost =
      some (∑ i ∈ Finset.range (min (([0, 0] : List Int).length) inst1.data.length),
        ((([0, 0] : List Int).getD i 0) - (inst1.data.getD i 0)).natAbs) ∧
    (fitness ⟨[0, 0], none, none⟩ inst1).fitness =
      some (1 / (1 + (compute_cost ⟨[0, 0], none, none⟩ inst1 : ℚ))) :=
  fitness_mismatch_amended ⟨[0, 0], none, none⟩ inst1 (by decide)

theorem uniformGo_spec : ∀ (pairs : List (Int × Int)) (r : RState),
    (uniformGo pairs r).1.1.length = pairs.length ∧
    (uniformGo pairs r).1.2.length = pairs.length ∧
    ∀ i, i < pairs.length →
      ((uniformGo pairs r).1.1.getD i 0 = (pairs.getD i (0, 0)).1 ∧
        (uniformGo pairs r).1.2.getD i 0 = (pairs.getD i (0, 0)).2) ∨
      ((uniformGo pairs r).1.1.getD i 0 = (pairs.getD i (0, 0)).2 ∧
        (uniformGo pairs r).1.2.getD i 0 = (pairs.getD i (0, 0)).1) := by
  intro pairs
  induction pairs with
  | nil => intro r; refine ⟨rfl, rfl, ?_⟩; intro i hi; simp at hi
  | cons g rest ih =>
    intro r
    obtain ⟨ih1, ih2, ih3⟩ := ih (nextFloat r).2
    by_cases hc : (nextFloat r).1 < 1 / 2
    · rw [uniformGo, if_pos hc]
      refine ⟨by simpa using ih1, by simpa using ih2, ?_⟩
      intro i hi
      match i with
      | 0 => left; exact ⟨rfl, rfl⟩
      | j + 1 =>
        simp only [List.getD_cons_succ]
        exact ih3 j (by simpa using hi)
    · rw [uniformGo, if_neg hc]
      refine ⟨by simpa using ih1, by simpa using ih2, ?_⟩
      intro i hi
      match i with
      | 0 => right; exact ⟨rfl, rfl⟩
      | j + 1 =>
        simp only [List.getD_cons_succ]
        exact ih3 j (by simpa using hi)

/-- C10: on equal-length parents, uniform crossover succeeds and yields
two children of the parents' length such that at every gene position the
unordered pair of child genes is exactly the unordered pair of parent
genes at that position; identical parents yield both children identical
to the parents. -/
theorem uniform_crossover_spec (p1 p2 : List Int) (r : RState)
    (h : p1.length = p2.length) :
    ∃ c1 c2 r', uniform p1 p2 r = some ((c1, c2), r') ∧
      c1.length = p1.length ∧ c2.length = p1.length ∧
      (∀ i, i < p1.length →
        (c1.getD i 0 = p1.getD i 0 ∧ c2.getD i 0 = p2.getD i 0) ∨
        (c1.getD i 0 = p2.getD i 0 ∧ c2.getD i 0 = p1.getD i 0)) ∧
      (p1 = p2 → c1 = p1 ∧ c2 = p1) := by
  refine ⟨(uniformGo (p1.zip p2) r).1.1, (uniformGo (p1.zip p2) r).1.2,
    (uniformGo (p1.zip p2) r).2, ?_, ?_, ?_, ?_, ?_⟩
  · rw [uniform, if_neg (by simp [h])]
  · obtain ⟨h1, _, _⟩ := uniformGo_spec (p1.zip p2) r
    rw [h1, List.length_zip, h, Nat.min_self]
  · obtain ⟨_, h2, _⟩ := uniformGo_spec (p1.zip p2) r
    rw [h2, List.length_zip, h, Nat.min_self]
  · intro i hi
    obtain ⟨_, _, h3⟩ := uniformGo_spec (p1.zip p2) r
    have hz : i < (p1.zip p2).length := by
      rw [List.length_zip, h, Nat.min_self]; exact h ▸ hi
    have := h3 i hz
    have hg : (p1.zip p2).getD i (0, 0) = (p1.getD i 0, p2.getD i 0) := by
      rw [List.getD_eq_getElem _ _ hz, List.getElem_zip,
        List.getD_eq_getElem _ _ hi, List.getD_eq_getElem _ _ (h ▸ hi)]
    rw [hg] at this
    exact this
  · intro hpp
    obtain ⟨h1, h2, h3⟩ := uniformGo_spec (p1.zip p2) r
    have hlen : (p1.zip p2).length = p1.length := by
      rw [List.length_zip, h, Nat.min_self]
    constructor
    · apply List.ext_getElem (by rw [h1, hlen])
      intro i hi1 hi2
      have hz : i < (p1.zip p2).length := by rw [hlen]; exact hi2
      have := h3 i hz
      have hg : (p1.zip p2).getD i (0, 0) = (p1.getD i 0, p2.getD i 0) := by
        rw [List.getD_eq_getElem _ _ hz, List.getElem_zip,
          List.getD_eq_getElem _ _ hi2, List.getD_eq_getElem _ _ (h ▸ hi2)]
      rw [hg] at this
      have hsame : p2.getD i 0 = p1.getD i 0 := by rw [hpp]
      have : (uniformGo (p1.zip p2) r).1.1.getD i 0 = p1.getD i 0 := by
        rcases this with ⟨ha, _⟩ | ⟨ha, _⟩
        · exact ha
        · rw [ha, hsame]
      rw [List.getD_eq_getElem _ _ hi1, List.getD_eq_getElem _ _ hi2] at this
      exact this
    · apply List.ext_getElem (by rw [h2, hlen])
      intro i hi1 hi2
      have hz : i < (p1.zip p2).length := by rw [hlen]; exact hi2
      have := h3 i hz
      have hg : (p1.zip p2).getD i (0, 0) = (p1.getD i 0, p2.getD i 0) := by
        rw [List.getD_eq_getElem _ _ hz, List.getElem_zip,
          List.getD_eq_getElem _ _ hi2, List.getD_eq_getElem _ _ (h ▸ hi2)]
      rw [hg] at this
      have hsame : p2.getD i 0 = p1.getD i 0 := by rw [hpp]
      have : (uniformGo (p1.zip p2) r).1.2.getD i 0 = p1.getD i 0 := by
        rcases this with ⟨_, hb⟩ | ⟨_, hb⟩
        · rw [hb, hpp]
        · exact hb
      rw [List.getD_eq_getElem _ _ hi1, List.getD_eq_getElem _ _ hi2] at this
      exact this

/-- Witness for C10 at parents [1,2] and [3,4]. -/
theorem uniform_crossover_spec_witness :
    ∃ c1 c2 r', uniform [1, 2] [3, 4] r0 = some ((c1, c2), r') ∧
      c1.length = ([1, 2] : List Int).length ∧
      c2.length = ([1, 2] : List Int).length ∧
      (∀ i, i < ([1, 2] : List Int).length →
        (c1.getD i 0 = ([1, 2] : List Int).getD i 0 ∧
          c2.getD i 0 = ([3, 4] : List Int).getD i 0) ∨
        (c1.getD i 0 = ([3, 4] : List Int).getD i 0 ∧
          c2.getD i 0 = ([1, 2] : List Int).getD i 0)) ∧
      (([1, 2] : List Int) = [3, 4] → c1 = [1, 2] ∧ c2 = [1, 2]) :=
  uniform_crossover_spec [1, 2] [3, 4] r0 rfl

theorem sampleGo_spec {α : Type} :
    ∀ (k : Nat) (l : List α) (r : RState), k ≤ l.length →
      ∃ s r', sampleGo l k r = some (s, r') ∧ s.length = k ∧ ∀ x ∈ s, x ∈ l := by
  intro k
  induction k with
  | zero => intro l r _; exact ⟨[], r, by cases l <;> rfl, rfl, by simp⟩
  | succ k ih =>
    intro l r hk
    match l with
    | [] => simp at hk
    | a :: as =>
      have hlt : (nextNat r).1 % (a :: as).length < (a :: as).length :=
        Nat.mod_lt _ (by simp)
      have herase :
          ((a :: as).eraseIdx ((nextNat r).1 % (a :: as).length)).length =
            (a :: as).length - 1 := by
        rw [List.length_eraseIdx, if_pos hlt]
      have hk' : k ≤ ((a :: as).eraseIdx ((nextNat r).1 % (a :: as).length)).length := by
        rw [herase]
        have := hk
        simp only [List.length_cons] at this ⊢
        omega
      obtain ⟨s, r', hs, hlen, hmem⟩ :=
        ih ((a :: as).eraseIdx ((nextNat r).1 % (a :: as).length)) (nextNat r).2 hk'
      refine ⟨(a :: as).getD ((nextNat r).1 % (a :: as).length) a :: s, r', ?_,
        by simp [hlen], ?_⟩
      · show (sampleGo _ k _).map _ = _
        rw [hs]
        rfl
      · intro x hx
        rcases List.mem_cons.mp hx with hx | hx
        · subst hx
          rw [List.getD_eq_getElem _ _ hlt]
          exact List.getElem_mem hlt
        · exact (List.eraseIdx_sublist _ _).subset (hmem x hx)

theorem cons_set_perm {α : Type} :
    ∀ (t : List α) (m : Nat) (h : m < t.length) (v : α),
      (t[m] :: t.set m v).Perm (v :: t) := by
  intro t
  induction t with
  | nil => intro m h; simp at h
  | cons b s ih =>
    intro m h v
    match m with
    | 0 => simpa using List.Perm.swap v b s
    | q + 1 =>
      have h' : q < s.length := by simpa using h
      have step1 : (s[q] :: b :: s.set q v).Perm (b :: s[q] :: s.set q v) :=
        List.Perm.swap b s[q] _
      have step2 : (b :: s[q] :: s.set q v).Perm (b :: v :: s) := (ih q h' v).cons b
      have step3 : (b :: v :: s).Perm (v :: b :: s) := List.Perm.swap v b s
      simpa using (step1.trans step2).trans step3

theorem set_set_perm {α : Type} :
    ∀ (l : List α) (i j : Nat) (hi : i < l.length) (hj : j < l.length),
      ((l.set i l[j]).set j l[i]).Perm l := by
  intro l
  induction l with
  | nil => intro i j hi _; simp at hi
  | cons a t ih =>
    intro i j hi hj
    match i, j with
    | 0, 0 => simp
    | 0, m + 1 =>
      have h' : m < t.length := by simpa using hj
      simpa using cons_set_perm t m h' a
    | n + 1, 0 =>
      have h' : n < t.length := by simpa using hi
      simpa using cons_set_perm t n h' a
    | n + 1, m + 1 =>
      have hi' : n < t.length := by simpa using hi
      have hj' : m < t.length := by simpa using hj
      simpa using (ih n m hi' hj').cons a

theorem swapAt_perm (l : List Int) (i j : Nat) (hi : i < l.length)
    (hj : j < l.length) : (swapAt l i j).Perm l := by
  rw [swapAt, List.getD_eq_getElem _ _ hj, List.getD_eq_getElem _ _ hi]
  exact set_set_perm l i j hi hj

theorem inversion_slice_perm (l : List Int) (i j : Nat) (hij : i ≤ j) :
    (l.take i ++ ((l.drop i).take (j - i)).reverse ++ l.drop j).Perm l := by
  have hdrop : (l.drop i).drop (j - i) = l.drop j := by
    rw [List.drop_drop]
    congr 1
    omega
  have h2 : (l.drop i).take (j - i) ++ l.drop j = l.drop i := by
    conv_rhs => rw [← List.take_append_drop (j - i) (l.drop i)]
    rw [hdrop]
  have key : (((l.drop i).take (j - i)).reverse ++ l.drop j).Perm (l.drop i) := by
    conv_rhs => rw [← h2]
    exact (List.reverse_perm _).append (List.Perm.refl _)
  have main : (l.take i ++ (((l.drop i).take (j - i)).reverse ++ l.drop j)).Perm
      (l.take i ++ l.drop i) := List.Perm.append_left _ key
  rw [List.take_append_drop] at main
  rw [List.append_assoc]
  exact main

theorem getD_set_ne (l : List Int) (i j : Nat) (v : Int) (hne : j ≠ i) :
    (l.set i v).getD j 0 = l.getD j 0 := by
  by_cases hj : j < l.length
  · rw [List.getD_eq_getElem _ _ (by simpa using hj), List.getD_eq_getElem _ _ hj,
      List.getElem_set_ne (fun h => hne h.symm)]
  · rw [List.getD_eq_default _ _ (by simpa using Nat.le_of_not_lt hj),
      List.getD_eq_default _ _ (Nat.le_of_not_lt hj)]

/-- C8 counterexample: random-reset on the length-2 chromosome [0,0] with
value range [0,0] returns the chromosome unchanged, so the result differs
from the input in zero positions, not exactly one. -/
theorem random_reset_counterexample :
    (random_reset [0, 0] 0 0 r0).map Prod.fst = some [0, 0] := by
  with_unfolding_all decide

/-- C8 amended: on chromosomes of length at least 2, swap and inversion
succeed and return a chromosome with exactly the same multiset of gene
values (a permutation of the input); random-reset (on any non-empty
chromosome, with a non-empty value range) overwrites exactly one chosen
position with a fresh in-range value that may equal the old one, so the
result keeps the input's length and agrees with the input at every other
position; all three leave the input unmodified, every operator of the
embedding being pure and returning a new list. -/
theorem mutation_amended :
    (∀ (chrom : List Int) (r : RState), 2 ≤ chrom.length →
      ∃ out r', swap chrom r = some (out, r') ∧ out.Perm chrom) ∧
    (∀ (chrom : List Int) (r : RState), 2 ≤ chrom.length →
      ∃ out r', inversion chrom r = some (out, r') ∧ out.Perm chrom) ∧
    (∀ (chrom : List Int) (lo hi : Int) (r : RState),
      1 ≤ chrom.length → lo ≤ hi →
      ∃ out r' i, random_reset chrom lo hi r = some (out, r') ∧
        i < chrom.length ∧ out.length = chrom.length ∧
        ∀ j, j ≠ i → out.getD j 0 = chrom.getD j 0) := by
  refine ⟨?_, ?_, ?_⟩
  · intro chrom r h
    obtain ⟨s, r', hs, hlen, hmem⟩ :=
      sampleGo_spec 2 (List.range chrom.length) r (by simpa using h)
    match s, hlen with
    | [i, j], _ =>
      have hi : i < chrom.length := by
        simpa using List.mem_range.mp (hmem i (by simp))
      have hj : j < chrom.length := by
        simpa using List.mem_range.mp (hmem j (by simp))
      refine ⟨swapAt chrom i j, r', ?_, swapAt_perm chrom i j hi hj⟩
      rw [swap, sampleDistinct, if_neg (by simp; omega), hs]
      rfl
  · intro chrom r h
    obtain ⟨s, r', hs, hlen, hmem⟩ :=
      sampleGo_spec 2 (List.range chrom.length) r (by simpa using h)
    match s, hlen with
    | [a, b], _ =>
      refine ⟨chrom.take (min a b) ++
        ((chrom.drop (min a b)).take (max a b - min a b)).reverse ++
        chrom.drop (max a b), r', ?_,
        inversion_slice_perm chrom (min a b) (max a b) (min_le_max)⟩
      rw [inversion, sampleDistinct, if_neg (by simp; omega), hs]
      rfl
  · intro chrom lo hi r hlen hlohi
    have hne : chrom.length ≠ 0 := by omega
    have hpos : 0 < chrom.length - 1 - 0 + 1 := by omega
    have hidx : 0 + (nextNat r).1 % (chrom.length - 1 - 0 + 1) < chrom.length := by
      have := Nat.mod_lt (nextNat r).1 hpos
      omega
    refine ⟨chrom.set (0 + (nextNat r).1 % (chrom.length - 1 - 0 + 1))
        (lo + ((nextNat (nextNat r).2).1 : Int) % (hi - lo + 1)),
      (nextNat (nextNat r).2).2,
      0 + (nextNat r).1 % (chrom.length - 1 - 0 + 1), ?_, hidx, by simp, ?_⟩
    · rw [random_reset, if_neg hne, randNat, if_neg (by omega)]
      show (randInt _ lo hi).bind _ = _
      rw [randInt, if_neg (not_lt.mpr hlohi)]
      rfl
    · intro jj hjj
      exact getD_set_ne chrom _ jj _ hjj

/-- Witness for the C8 amended theorem: swap and inversion on [5, 7],
random-reset on [4] over the value range [0, 9]. -/
theorem mutation_amended_witness :
    (∃ out r', swap [5, 7] r0 = some (out, r') ∧ out.Perm [5, 7]) ∧
    (∃ out r', inversion [5, 7] r0 = some (out, r') ∧ out.Perm [5, 7]) ∧
    (∃ out r' i, random_reset [4] 0 9 r0 = some (out, r') ∧
      i < ([4] : List Int).length ∧ out.length = ([4] : List Int).length ∧
      ∀ j, j ≠ i → out.getD j 0 = ([4] : List Int).getD j 0) :=
  ⟨mutation_amended.1 [5, 7] r0 (by decide),
    mutation_amended.2.1 [5, 7] r0 (by decide),
    mutation_amended.2.2 [4] 0 9 r0 (by decide) (by decide)⟩

/-- C5 counterexample: constructing the engine with pop_size 0,
crossover_rate 2, mutation_rate -1, max_generations 0 and tournament k 0
— each invalid according to the claim — succeeds and stores exactly
those values; __init__ contains no validation and cannot fail before a
run starts. -/
theorem init_no_validation_counterexample :
    (GeneticAlgorithm.init inst1 0 2 (-1) 0 "one_point" "swap" "tournament" 0).pop_size
        = 0 ∧
    (GeneticAlgorithm.init inst1 0 2 (-1) 0 "one_point" "swap" "tournament" 0).crossover_rate
        = 2 ∧
    (GeneticAlgorithm.init inst1 0 2 (-1) 0 "one_point" "swap" "tournament" 0).mutation_rate
        = -1 ∧
    (GeneticAlgorithm.init inst1 0 2 (-1) 0 "one_point" "swap" "tournament" 0).max_generations
        = 0 ∧
    (GeneticAlgorithm.init inst1 0 2 (-1) 0 "one_point" "swap" "tournament" 0).tournament_k
        = 0 :=
  ⟨rfl, rfl, rfl, rfl, rfl⟩

/-- C5 amended: construction never fails: __init__ performs no parameter
validation at all and stores every value exactly as given — out-of-range
rates, non-positive sizes and k below 1 included — while the histories
start empty. -/
theorem init_stores_params (inst : Instance) (pop_size : Nat)
    (crossover_rate mutation_rate : ℚ) (max_generations : Nat)
    (crossover_op mutation_op selection_op : String) (tournament_k : Nat) :
    (GeneticAlgorithm.init inst pop_size crossover_rate mutation_rate
      max_generations crossover_op mutation_op selection_op tournament_k).inst
        = inst ∧
    (GeneticAlgorithm.init inst pop_size crossover_rate mutation_rate
      max_generations crossover_op mutation_op selection_op tournament_k).pop_size
        = pop_size ∧
    (GeneticAlgorithm.init inst pop_size crossover_rate mutation_rate
      max_generations crossover_op mutation_op selection_op tournament_k).crossover_rate
        = crossover_rate ∧
    (GeneticAlgorithm.init inst pop_size crossover_rate mutation_rate
      max_generations crossover_op mutation_op selection_op tournament_k).mutation_rate
        = mutation_rate ∧
    (GeneticAlgorithm.init inst pop_size crossover_rate mutation_rate
      max_generations crossover_op mutation_op selection_op tournament_k).max_generations
        = max_generations ∧
    (GeneticAlgorithm.init inst pop_size crossover_rate mutation_rate
      max_generations crossover_op mutation_op selection_op tournament_k).tournament_k
        = tournament_k ∧
    (GeneticAlgorithm.init inst pop_size crossover_rate mutation_rate
      max_generations crossover_op mutation_op selection_op tournament_k).selection_op
        = selection_op ∧
    (GeneticAlgorithm.init inst pop_size crossover_rate mutation_rate
      max_generations crossover_op mutation_op selection_op tournament_k).best_cost_history
        = [] :=
  ⟨rfl, rfl, rfl, rfl, rfl, rfl, rfl, rfl⟩

theorem range'_filter_lt (n : Nat) :
    ∀ (c s : Nat), (List.range' s c).filter (fun j => j < n) =
      List.range' s (min c (n - s)) := by
  intro c
  induction c with
  | zero => intro s; simp
  | succ c ih =>
    intro s
    rw [List.range'_succ, List.filter_cons]
    by_cases hs : s < n
    · rw [if_pos (by simpa using hs), ih (s + 1)]
      have harith : min (c + 1) (n - s) = min c (n - (s + 1)) + 1 := by omega
      rw [harith, List.range'_succ]
    · rw [if_neg (by simpa using hs), ih (s + 1)]
      have h1 : n - (s + 1) = 0 := by omega
      have h2 : n - s = 0 := by omega
      rw [h1, h2]
      simp

theorem hammingFrac_self (c : List Int) : hammingFrac c c = 0 := by
  rw [hammingFrac]
  have hz : (List.zipWith (fun g1 g2 => if g1 ≠ g2 then 1 else 0) c c).sum = 0 := by
    induction c with
    | nil => rfl
    | cons a t ih => simp [ih]
  rw [hz]
  simp

theorem mean_of_zeros (l : List ℚ) (h : ∀ x ∈ l, x = 0) :
    (if l.isEmpty then (0 : ℚ) else meanQ l) = 0 := by
  by_cases he : l.isEmpty
  · rw [if_pos he]
  · rw [if_neg he, meanQ, List.sum_eq_zero h, zero_div]

/-- C9 counterexample: on a two-individual population with distinct
one-gene chromosomes the source samples no pair at all (the inner range
is empty) and returns diversity 0, while the claimed sampling — each of
the first min(20, n) individuals against the next min(10, n-1)
individuals — yields the single pair (0, 1) with distance 1 and mean 1. -/
theorem diversity_pairs_counterexample :
    calculate_diversity pop2 = 0 ∧ diversity_claimed pop2 = 1 ∧ (0 : ℚ) ≠ 1 := by
  refine ⟨?_, ?_, by norm_num⟩
  · with_unfolding_all decide
  · with_unfolding_all decide

/-- C9 amended: the diversity metric compares each of the first
min(20, n) individuals i against the next min(10, n-1) - 1 individuals
(those existing, i.e. j strictly between i and min(i + min(10, n-1), n)),
uses the fraction of differing gene positions as pairwise distance and
returns the mean of all sampled distances, or 0 when fewer than two
individuals exist or no pair was sampled; any population of identical
chromosomes has diversity exactly 0. -/
theorem diversity_amended :
    (∀ population : List Individual,
      calculate_diversity population = diversity_amended_spec population) ∧
    (∀ population : List Individual, population.length < 2 →
      calculate_diversity population = 0) ∧
    (∀ (population : List Individual) (c : List Int),
      (∀ ind ∈ population, ind.chromosome = c) →
      calculate_diversity population = 0) := by
  refine ⟨?_, ?_, ?_⟩
  · intro population
    by_cases h2 : population.length < 2
    · simp only [calculate_diversity, diversity_amended_spec, if_pos h2]
    · simp only [calculate_diversity, diversity_amended_spec, if_neg h2]
      have hlists : ∀ i : Nat,
          List.range' (i + 1)
            (min (i + min 10 (population.length - 1)) population.length - (i + 1)) =
          (List.range' (i + 1) (min 10 (population.length - 1) - 1)).filter
            (fun j => j < population.length) := by
        intro i
        rw [range'_filter_lt]
        congr 1
        omega
      simp only [hlists]
  · intro population h2
    simp only [calculate_diversity, if_pos h2]
  · intro population c hall
    by_cases h2 : population.length < 2
    · simp only [calculate_diversity, if_pos h2]
    · simp only [calculate_diversity, if_neg h2]
      apply mean_of_zeros
      intro x hx
      rw [List.mem_flatMap] at hx
      obtain ⟨i, hi, hx⟩ := hx
      rw [List.mem_map] at hx
      obtain ⟨j, hj, hxe⟩ := hx
      have hiR : i < population.length := by
        have := List.mem_range.mp hi
        omega
      have hjR : j < population.length := by
        have := List.mem_range'.mp hj
        omega
      have hci : (population.getD i default).chromosome = c := by
        apply hall
        rw [List.getD_eq_getElem _ _ hiR]
        exact List.getElem_mem hiR
      have hcj : (population.getD j default).chromosome = c := by
        apply hall
        rw [List.getD_eq_getElem _ _ hjR]
        exact List.getElem_mem hjR
      rw [← hxe, hci, hcj]
      exact hammingFrac_self c

/-- Witness for the C9 amended theorem: the empty population, a
three-individual identical-chromosome population, and the refinement
equation at that population. -/
theorem diversity_amended_witness :
    calculate_diversity ([] : List Individual) = 0 ∧
    calculate_diversity popSame = 0 ∧
    calculate_diversity pop2 = diversity_amended_spec pop2 :=
  ⟨diversity_amended.2.1 [] (by decide),
    diversity_amended.2.2 popSame [3] (by decide),
    diversity_amended.1 pop2⟩

theorem sampleGo_zero {α : Type} (l : List α) (r : RState) :
    sampleGo l 0 r = some ([], r) := by
  cases l <;> rfl

theorem sampleGo_one {α : Type} (a : α) (as : List α) (r : RState) :
    sampleGo (a :: as) 1 r =
      some ([(a :: as).getD ((nextNat r).1 % (a :: as).length) a], (nextNat r).2) := by
  show (sampleGo _ 0 _).map _ = _
  rw [sampleGo_zero]
  rfl

theorem pythonMax_foldl_spec (key : Individual → ℚ) :
    ∀ (xs : List Individual) (b : Individual),
      (xs.foldl (fun b a => if key b < key a then a else b) b) ∈ b :: xs ∧
      key b ≤ key (xs.foldl (fun b a => if key b < key a then a else b) b) ∧
      ∀ x ∈ xs, key x ≤ key (xs.foldl (fun b a => if key b < key a then a else b) b) := by
  intro xs
  induction xs with
  | nil => intro b; exact ⟨by simp, le_refl _, by simp⟩
  | cons a t ih =>
    intro b
    rw [List.foldl_cons]
    by_cases h : key b < key a
    · rw [if_pos h]
      obtain ⟨m1, m2, m3⟩ := ih a
      refine ⟨?_, le_trans (le_of_lt h) m2, ?_⟩
      · rcases List.mem_cons.mp m1 with he | hm
        · rw [he]; simp
        · simp [List.mem_cons_of_mem, hm]
      · intro x hx
        rcases List.mem_cons.mp hx with rfl | hx
        · exact m2
        · exact m3 x hx
    · rw [if_neg h]
      obtain ⟨m1, m2, m3⟩ := ih b
      refine ⟨?_, m2, ?_⟩
      · rcases List.mem_cons.mp m1 with he | hm
        · rw [he]; simp
        · simp [List.mem_cons_of_mem, hm]
      · intro x hx
        rcases List.mem_cons.mp hx with rfl | hx
        · exact le_trans (le_of_not_lt h) m2
        · exact m3 x hx

theorem pythonMax_foldl_first (key : Individual → ℚ) :
    ∀ (xs : List Individual) (b : Individual),
      ∃ m, m < (b :: xs).length ∧
        xs.foldl (fun b a => if key b < key a then a else b) b =
          (b :: xs).getD m default ∧
        (∀ x ∈ b :: xs, key x ≤ key ((b :: xs).getD m default)) ∧
        ∀ m', m' < m →
          key ((b :: xs).getD m' default) < key ((b :: xs).getD m default) := by
  intro xs
  induction xs with
  | nil =>
    intro b
    exact ⟨0, by simp, rfl, by simp, fun m' hm' => absurd hm' (by omega)⟩
  | cons a t ih =>
    intro b
    rw [List.foldl_cons]
    by_cases h : key b < key a
    · rw [if_pos h]
      obtain ⟨m, hm, hres, hmax, hfirst⟩ := ih a
      refine ⟨m + 1, by simpa using hm, ?_, ?_, ?_⟩
      · rw [List.getD_cons_succ]
        exact hres
      · intro x hx
        rw [List.getD_cons_succ]
        rcases List.mem_cons.mp hx with rfl | hx
        · exact le_of_lt (lt_of_lt_of_le h (hmax a (by simp)))
        · exact hmax x hx
      · intro m' hm'
        match m' with
        | 0 =>
          simp only [List.getD_cons_zero, List.getD_cons_succ]
          exact lt_of_lt_of_le h (hmax a (by simp))
        | q + 1 =>
          simp only [List.getD_cons_succ]
          exact hfirst q (by omega)
    · rw [if_neg h]
      obtain ⟨m, hm, hres, hmax, hfirst⟩ := ih b
      match m, hm with
      | 0, _ =>
        refine ⟨0, by simp, ?_, ?_, fun m' hm' => absurd hm' (by omega)⟩
        · rw [List.getD_cons_zero]
          rw [List.getD_cons_zero] at hres
          exact hres
        · intro y hy
          rw [List.getD_cons_zero]
          rw [List.getD_cons_zero] at hmax
          rcases List.mem_cons.mp hy with h1 | hy'
          · rw [h1]
          · rcases List.mem_cons.mp hy' with h2 | hy''
            · rw [h2]
              exact le_trans (le_of_not_lt h) (hmax b (by simp))
            · exact hmax y (List.mem_cons_of_mem b hy'')
      | q + 1, hm =>
        have hD : (b :: a :: t).getD (q + 2) default = t.getD q default := by
          simp only [List.getD_cons_succ]
        have hD' : (b :: t).getD (q + 1) default = t.getD q default :=
          List.getD_cons_succ
        refine ⟨q + 2, ?_, ?_, ?_, ?_⟩
        · simp only [List.length_cons]
          simp only [List.length_cons] at hm
          omega
        · rw [hD]
          rw [hD'] at hres
          exact hres
        · intro y hy
          rw [hD]
          rw [hD'] at hmax
          rcases List.mem_cons.mp hy with h1 | hy'
          · rw [h1]
            exact hmax b (by simp)
          · rcases List.mem_cons.mp hy' with h2 | hy''
            · rw [h2]
              exact le_trans (le_of_not_lt h) (hmax b (by simp))
            · exact hmax y (List.mem_cons_of_mem b hy'')
        · intro m' hm'
          rw [hD]
          rw [hD'] at hfirst
          match m' with
          | 0 =>
            have hb := hfirst 0 (by omega)
            simp only [List.getD_cons_zero] at hb
            simp only [List.getD_cons_zero]
            exact hb
          | 1 =>
            have hb := hfirst 0 (by omega)
            simp only [List.getD_cons_zero] at hb
            simp only [List.getD_cons_succ, List.getD_cons_zero]
            exact lt_of_le_of_lt (le_of_not_lt h) hb
          | i + 2 =>
            have hi := hfirst (i + 1) (by omega)
            simp only [List.getD_cons_succ] at hi
            simp only [List.getD_cons_succ]
            exact hi

theorem pythonMax_first (key : Individual → ℚ) (l : List Individual)
    (hne : l ≠ []) :
    ∃ m, m < l.length ∧ pythonMax key l = some (l.getD m default) ∧
      (∀ x ∈ l, key x ≤ key (l.getD m default)) ∧
      ∀ m', m' < m → key (l.getD m' default) < key (l.getD m default) := by
  match l, hne with
  | x :: xs, _ =>
    obtain ⟨m, hm, hres, hmax, hfirst⟩ := pythonMax_foldl_first key xs x
    refine ⟨m, hm, ?_, hmax, hfirst⟩
    rw [pythonMax, hres]

theorem pythonMax_spec (key : Individual → ℚ) (l : List Individual) (hne : l ≠ []) :
    ∃ m, pythonMax key l = some m ∧ m ∈ l ∧ ∀ x ∈ l, key x ≤ key m := by
  match l, hne with
  | x :: xs, _ =>
    obtain ⟨m1, m2, m3⟩ := pythonMax_foldl_spec key xs x
    refine ⟨_, rfl, m1, ?_⟩
    intro y hy
    rcases List.mem_cons.mp hy with rfl | hy
    · exact m2
    · exact m3 y hy

theorem pythonMax_mem (key : Individual → ℚ) (l : List Individual) (m : Individual)
    (h : pythonMax key l = some m) : m ∈ l := by
  match l with
  | [] => exact absurd h (by rw [pythonMax]; simp)
  | x :: xs =>
    obtain ⟨m1, _, _⟩ := pythonMax_foldl_spec key xs x
    rw [pythonMax] at h
    cases h
    exact m1

theorem tournament_k1_uniform (pop : List Individual) (r : RState) (hne : pop ≠ []) :
    ∃ r', tournament_selection pop 1 r =
      some (pop.getD (r.ints r.ii % pop.length) default, r') := by
  match pop, hne with
  | a :: as, _ =>
    have hlt : (nextNat r).1 % (a :: as).length < (a :: as).length :=
      Nat.mod_lt _ (by simp)
    have hD : (a :: as).getD ((nextNat r).1 % (a :: as).length) a =
        (a :: as).getD ((nextNat r).1 % (a :: as).length) default := by
      rw [List.getD_eq_getElem _ _ hlt, List.getD_eq_getElem _ _ hlt]
    refine ⟨(nextNat r).2, ?_⟩
    rw [tournament_selection, sampleDistinct, if_neg (by simp), sampleGo_one]
    show some ((a :: as).getD ((nextNat r).1 % (a :: as).length) a,
      (nextNat r).2) = _
    rw [hD]
    rfl

theorem tpLoop_spec (scores : List ℚ) (n : Nat) (hn : 0 < n) :
    ∀ (t sel : Nat) (r : RState), sel < n →
      (tpLoop scores n t sel r).1 < n ∧
      scores.getD sel 0 ≤ scores.getD (tpLoop scores n t sel r).1 0 ∧
      ∀ m, m < t → scores.getD (r.ints (r.ii + m) % n) 0 ≤
        scores.getD (tpLoop scores n t sel r).1 0 := by
  intro t
  induction t with
  | zero =>
    intro sel r hsel
    exact ⟨hsel, le_refl _, fun m hm => absurd hm (by omega)⟩
  | succ t ih =>
    intro sel r hsel
    have hix : (nextNat r).1 % n < n := Nat.mod_lt _ hn
    have hsel' :
        (if scores.getD sel 0 < scores.getD ((nextNat r).1 % n) 0
          then (nextNat r).1 % n else sel) < n := by
      by_cases hcmp : scores.getD sel 0 < scores.getD ((nextNat r).1 % n) 0
      · rw [if_pos hcmp]; exact hix
      · rw [if_neg hcmp]; exact hsel
    obtain ⟨h1, h2, h3⟩ := ih
      (if scores.getD sel 0 < scores.getD ((nextNat r).1 % n) 0
        then (nextNat r).1 % n else sel) (nextNat r).2 hsel'
    have hkey : scores.getD sel 0 ≤ scores.getD
        (if scores.getD sel 0 < scores.getD ((nextNat r).1 % n) 0
          then (nextNat r).1 % n else sel) 0 := by
      by_cases hcmp : scores.getD sel 0 < scores.getD ((nextNat r).1 % n) 0
      · rw [if_pos hcmp]; exact le_of_lt hcmp
      · rw [if_neg hcmp]
    have hkey2 : scores.getD ((nextNat r).1 % n) 0 ≤ scores.getD
        (if scores.getD sel 0 < scores.getD ((nextNat r).1 % n) 0
          then (nextNat r).1 % n else sel) 0 := by
      by_cases hcmp : scores.getD sel 0 < scores.getD ((nextNat r).1 % n) 0
      · rw [if_pos hcmp]
      · rw [if_neg hcmp]; exact le_of_not_lt hcmp
    refine ⟨h1, le_trans hkey h2, ?_⟩
    intro m hm
    match m with
    | 0 =>
      show scores.getD (r.ints (r.ii + 0) % n) 0 ≤ _
      rw [Nat.add_zero]
      exact le_trans hkey2 h2
    | q + 1 =>
      have hq : q < t := by omega
      have := h3 q hq
      have harith : (nextNat r).2.ii + q = r.ii + (q + 1) := by
        show r.ii + 1 + q = r.ii + (q + 1)
        omega
      rw [harith] at this
      exact this

/-- C4 counterexample: the engine's tournament selection
(core_functions/Selection.py) on a population of size 1 with k = 2 fails
— random.sample refuses to draw 2 elements from a population of 1 —
rather than returning that individual as the maximum of two
with-replacement draws, so the selection does not draw with
replacement. -/
theorem tournament_without_replacement_counterexample :
    tournament_selection [ind1] 2 r0 = none := by
  with_unfolding_all rfl

/-- C4 amended: the engine's tournament (core_functions/Selection.py)
draws k distinct individuals uniformly WITHOUT replacement — failing
whenever k exceeds the population size — and returns the
first-encountered maximum-fitness member of the sample (every sampled
individual before the selected one has strictly smaller fitness); the
standalone variant (Algorithms/Tournament.py) draws k indices with
replacement and returns an individual whose score is maximal among all k
draws; with k = 1 the engine's tournament returns exactly the individual
at one uniformly drawn index, and on a population of size 1 with k = 1 it
always returns that single individual. -/
theorem tournament_selection_amended :
    (∀ (pop : List Individual) (k : Nat) (r : RState), pop.length < k →
      tournament_selection pop k r = none) ∧
    (∀ (pop : List Individual) (k : Nat) (r : RState), 1 ≤ k → k ≤ pop.length →
      ∃ s ind r', sampleDistinct pop k r = some (s, r') ∧ s.length = k ∧
        (∀ x ∈ s, x ∈ pop) ∧
        tournament_selection pop k r = some (ind, r') ∧ ind ∈ s ∧
        (∀ x ∈ s, fitKey x ≤ fitKey ind) ∧
        ∃ m, m < s.length ∧ ind = s.getD m default ∧
          ∀ m', m' < m → fitKey (s.getD m' default) < fitKey ind) ∧
    (∀ (pop : List Individual) (scores : List ℚ) (k : Nat) (r : RState),
      pop ≠ [] → 1 ≤ k →
      ∃ i r', tournament_selection_scores pop scores k r =
          some (pop.getD i default, r') ∧ i < pop.length ∧
        ∀ t, t < k → scores.getD (r.ints (r.ii + t) % pop.length) 0 ≤
          scores.getD i 0) ∧
    (∀ (pop : List Individual) (r : RState), pop ≠ [] →
      ∃ r', tournament_selection pop 1 r =
        some (pop.getD (r.ints r.ii % pop.length) default, r')) ∧
    (∀ (x : Individual) (r : RState),
      ∃ r', tournament_selection [x] 1 r = some (x, r')) := by
  refine ⟨?_, ?_, ?_, ?_, ?_⟩
  · intro pop k r hlt
    rw [tournament_selection, sampleDistinct, if_pos hlt]
    rfl
  · intro pop k r hk1 hk
    obtain ⟨s, r', hs, hlen, hmem⟩ := sampleGo_spec k pop r hk
    have hsne : s ≠ [] := by
      intro he
      rw [he] at hlen
      simp at hlen
      omega
    obtain ⟨m, hm, hres, hmax, hfirst⟩ := pythonMax_first fitKey s hsne
    have hDmem : s.getD m default ∈ s := by
      rw [List.getD_eq_getElem _ _ hm]
      exact List.getElem_mem hm
    refine ⟨s, s.getD m default, r', ?_, hlen, hmem, ?_, hDmem, hmax,
      m, hm, rfl, hfirst⟩
    · rw [sampleDistinct, if_neg (by omega), hs]
    · rw [tournament_selection, sampleDistinct, if_neg (by omega), hs]
      show (pythonMax fitKey s).map _ = _
      rw [hres]
      rfl
  · intro pop scores k r hne hk
    have hn : 0 < pop.length := List.length_pos.mpr hne
    have hsel0 : (nextNat r).1 % pop.length < pop.length := Nat.mod_lt _ hn
    obtain ⟨h1, h2, h3⟩ := tpLoop_spec scores pop.length hn (k - 1)
      ((nextNat r).1 % pop.length) (nextNat r).2 hsel0
    refine ⟨(tpLoop scores pop.length (k - 1)
        ((nextNat r).1 % pop.length) (nextNat r).2).1,
      (tpLoop scores pop.length (k - 1)
        ((nextNat r).1 % pop.length) (nextNat r).2).2, ?_, h1, ?_⟩
    · rw [tournament_selection_scores, if_neg (by simpa using hne)]
    · intro t ht
      match t with
      | 0 =>
        show scores.getD (r.ints (r.ii + 0) % pop.length) 0 ≤ _
        rw [Nat.add_zero]
        exact h2
      | q + 1 =>
        have hq : q < k - 1 := by omega
        have := h3 q hq
        have harith : (nextNat r).2.ii + q = r.ii + (q + 1) := by
          show r.ii + 1 + q = r.ii + (q + 1)
          omega
        rw [harith] at this
        exact this
  · exact fun pop r hne => tournament_k1_uniform pop r hne
  · intro x r
    obtain ⟨r', hr⟩ := tournament_k1_uniform [x] r (by simp)
    refine ⟨r', ?_⟩
    simpa [Nat.mod_one] using hr

/-- Witness for the C4 amended theorem: the universal failure at k = 2 on
a singleton population, the engine's tournament with k = 2 on a
two-individual population, the scores variant with k = 2, the k = 1 draw
and the singleton case. -/
theorem tournament_selection_amended_witness :
    tournament_selection [ind1] 2 r0 = none ∧
    (∃ s ind r', sampleDistinct [indNeg, indPos] 2 r0 = some (s, r') ∧
      s.length = 2 ∧ (∀ x ∈ s, x ∈ [indNeg, indPos]) ∧
      tournament_selection [indNeg, indPos] 2 r0 = some (ind, r') ∧ ind ∈ s ∧
      (∀ x ∈ s, fitKey x ≤ fitKey ind) ∧
      ∃ m, m < s.length ∧ ind = s.getD m default ∧
        ∀ m', m' < m → fitKey (s.getD m' default) < fitKey ind) ∧
    (∃ i r', tournament_selection_scores [indNeg, indPos] [-1, 2] 2 r0 =
        some (([indNeg, indPos] : List Individual).getD i default, r') ∧
      i < ([indNeg, indPos] : List Individual).length ∧
      ∀ t, t < 2 → ([-1, 2] : List ℚ).getD
          (r0.ints (r0.ii + t) % ([indNeg, indPos] : List Individual).length) 0 ≤
        ([-1, 2] : List ℚ).getD i 0) ∧
    (∃ r', tournament_selection [indNeg, indPos] 1 r0 =
      some (([indNeg, indPos] : List Individual).getD
        (r0.ints r0.ii % ([indNeg, indPos] : List Individual).length) default, r')) ∧
    (∃ r', tournament_selection [ind1] 1 r0 = some (ind1, r')) :=
  ⟨tournament_selection_amended.1 [ind1] 2 r0 (by decide),
    tournament_selection_amended.2.1 [indNeg, indPos] 2 r0 (by decide) (by decide),
    tournament_selection_amended.2.2.1 [indNeg, indPos] [-1, 2] 2 r0 (by decide)
      (by decide),
    tournament_selection_amended.2.2.2.1 [indNeg, indPos] r0 (by decide),
    tournament_selection_amended.2.2.2.2 ind1 r0⟩

theorem cumFit_cons (a : Individual) (t : List Individual) (m : Nat) :
    cumFit (a :: t) (m + 1) = fitKey a + cumFit t m := by
  simp [cumFit, List.take_succ_cons]

theorem sum_pos_of_nonneg_of_mem_pos :
    ∀ (l : List ℚ), (∀ x ∈ l, 0 ≤ x) → (∃ x ∈ l, 0 < x) → 0 < l.sum := by
  intro l
  induction l with
  | nil =>
    intro _ h
    obtain ⟨x, hx, _⟩ := h
    simp at hx
  | cons a t ih =>
    intro hn hex
    rw [List.sum_cons]
    obtain ⟨x, hx, hxpos⟩ := hex
    rcases List.mem_cons.mp hx with rfl | hx
    · have ht : (0 : ℚ) ≤ t.sum :=
        List.sum_nonneg fun y hy => hn y (List.mem_cons_of_mem _ hy)
      linarith
    · have h1 : (0 : ℚ) < t.sum :=
        ih (fun y hy => hn y (List.mem_cons_of_mem _ hy)) ⟨x, hx, hxpos⟩
      have h2 : (0 : ℚ) ≤ a := hn a (by simp)
      linarith

theorem rouletteWalk_first :
    ∀ (pop : List Individual) (acc pick : ℚ), pop ≠ [] →
      pick ≤ acc + (pop.map fitKey).sum →
      ∃ m, ∃ hm : m < pop.length, rouletteWalk pop acc pick = some pop[m] ∧
        pick ≤ acc + cumFit pop (m + 1) ∧
        ∀ m', m' < m → acc + cumFit pop (m' + 1) < pick := by
  intro pop
  induction pop with
  | nil => intro _ _ h _; exact absurd rfl h
  | cons a t ih =>
    intro acc pick _ hsum
    by_cases hc : pick ≤ acc + fitKey a
    · refine ⟨0, by simp, ?_, ?_, ?_⟩
      · rw [rouletteWalk, if_pos hc]
        rfl
      · rw [cumFit_cons]
        simp only [cumFit, List.take_zero, List.map_nil, List.sum_nil, add_zero]
        exact hc
      · intro m' hm'
        exact absurd hm' (by omega)
    · rw [rouletteWalk]
      rw [if_neg hc]
      have ht : t ≠ [] := by
        intro he
        subst he
        simp only [List.map_cons, List.map_nil, List.sum_cons, List.sum_nil,
          add_zero] at hsum
        exact hc (by linarith)
      have hsum' : pick ≤ (acc + fitKey a) + (t.map fitKey).sum := by
        simp only [List.map_cons, List.sum_cons] at hsum
        linarith
      obtain ⟨m, hm, hwalk, hle, hlt⟩ := ih (acc + fitKey a) pick ht hsum'
      refine ⟨m + 1, by simpa using hm, ?_, ?_, ?_⟩
      · simpa using hwalk
      · rw [cumFit_cons]
        linarith [hle]
      · intro m' hm'
        match m' with
        | 0 =>
          rw [cumFit_cons]
          simp only [cumFit, List.take_zero, List.map_nil, List.sum_nil, add_zero]
          exact lt_of_not_ge fun hge => hc hge
        | q + 1 =>
          have := hlt q (by omega)
          rw [cumFit_cons]
          linarith [this]

/-- C7 counterexample: the engine's single-draw roulette
(core_functions/Selection.py) applied to a population containing the
fitness value -1 does not fail: with the threshold drawn at 0 it walks
the cumulative fitness past the negative entry and returns the second
individual. -/
theorem roulette_negative_counterexample :
    indNeg.fitness = some (-1) ∧ (-1 : ℚ) < 0 ∧
    (roulette_selection [indNeg, indPos] r0).1 = some indPos := by
  refine ⟨rfl, by norm_num, ?_⟩
  with_unfolding_all decide

/-- C7 amended: the bulk roulette of Algorithms/roulette.py raises on any
negative fitness weight, and succeeds whenever the weight list matches
the population length, every weight is non-negative and some weight is
positive; the engine's single-draw roulette of
core_functions/Selection.py performs no validation and raises nothing —
on non-negative fitness with at least one positive value and a unit draw
u in [0, 1] it returns the first individual whose cumulative fitness
reaches the threshold total * u. -/
theorem roulette_amended :
    (∀ (pop : List Individual) (scores : List ℚ) (k : Nat) (r : RState),
      (∃ f ∈ scores, f < 0) →
      roulette_selection_bulk pop scores k r =
        Except.error "Fitness scores must be non-negative for roulette selection.") ∧
    (∀ (pop : List Individual) (scores : List ℚ) (k : Nat) (r : RState),
      scores.length = pop.length → (∀ f ∈ scores, 0 ≤ f) → (∃ f ∈ scores, 0 < f) →
      ∃ out, roulette_selection_bulk pop scores k r = Except.ok out) ∧
    (∀ (pop : List Individual) (r : RState),
      (∀ ind ∈ pop, 0 ≤ fitKey ind) → (∃ ind ∈ pop, 0 < fitKey ind) →
      0 ≤ r.floats r.fi → r.floats r.fi ≤ 1 →
      ∃ m, ∃ hm : m < pop.length, (roulette_selection pop r).1 = some pop[m] ∧
        (pop.map fitKey).sum * r.floats r.fi ≤ cumFit pop (m + 1) ∧
        ∀ m', m' < m →
          cumFit pop (m' + 1) < (pop.map fitKey).sum * r.floats r.fi) := by
  refine ⟨?_, ?_, ?_⟩
  · intro pop scores k r hneg
    obtain ⟨f, hf, hfneg⟩ := hneg
    rw [roulette_selection_bulk,
      if_pos (List.any_eq_true.mpr ⟨f, hf, by simpa using hfneg⟩)]
  · intro pop scores k r hlen hnn hpos
    have hany : ¬ (scores.any fun f => decide (f < 0)) = true := by
      rw [List.any_eq_true]
      rintro ⟨f, hf, hflt⟩
      exact absurd (hnn f hf) (by simpa using hflt)
    have hsum : ¬ scores.sum ≤ 0 :=
      not_le.mpr (sum_pos_of_nonneg_of_mem_pos scores hnn hpos)
    rw [roulette_selection_bulk, if_neg hany,
      if_neg (show ¬ scores.length ≠ pop.length by omega), if_neg hsum]
    exact ⟨_, rfl⟩
  · intro pop r hnn hpos hu0 hu1
    have hne : pop ≠ [] := by
      obtain ⟨ind, hind, _⟩ := hpos
      intro he
      subst he
      simp at hind
    have htnn : (0 : ℚ) ≤ (pop.map fitKey).sum :=
      List.sum_nonneg fun y hy => by
        obtain ⟨ind, hind, rfl⟩ := List.mem_map.mp hy
        exact hnn ind hind
    have hpick : (pop.map fitKey).sum * r.floats r.fi ≤ 0 + (pop.map fitKey).sum := by
      rw [zero_add]
      exact mul_le_of_le_one_right htnn hu1
    obtain ⟨m, hm, hwalk, hle, hlt⟩ :=
      rouletteWalk_first pop 0 ((pop.map fitKey).sum * r.floats r.fi) hne hpick
    refine ⟨m, hm, hwalk, ?_, ?_⟩
    · rw [zero_add] at hle
      exact hle
    · intro m' hm'
      have := hlt m' hm'
      rw [zero_add] at this
      exact this

/-- Witness for the C7 amended theorem: the bulk roulette rejecting
[-1, 2] and accepting [2], the single-draw roulette on a singleton
all-positive population. -/
theorem roulette_amended_witness :
    roulette_selection_bulk [indNeg, indPos] [-1, 2] 2 r0 =
      Except.error "Fitness scores must be non-negative for roulette selection." ∧
    (∃ out, roulette_selection_bulk [indPos] [2] 1 r0 = Except.ok out) ∧
    (∃ m, ∃ hm : m < ([indPos] : List Individual).length,
      (roulette_selection [indPos] r0).1 = some ([indPos] : List Individual)[m] ∧
      (([indPos] : List Individual).map fitKey).sum * r0.floats r0.fi ≤
        cumFit [indPos] (m + 1) ∧
      ∀ m', m' < m → cumFit [indPos] (m' + 1) <
        (([indPos] : List Individual).map fitKey).sum * r0.floats r0.fi) :=
  ⟨roulette_amended.1 [indNeg, indPos] [-1, 2] 2 r0 ⟨-1, by norm_num, by norm_num⟩,
    roulette_amended.2.1 [indPos] [2] 1 r0 rfl (by norm_num)
      ⟨2, by norm_num, by norm_num⟩,
    roulette_amended.2.2 [indPos] r0
      (by intro ind hind; rcases List.mem_cons.mp hind with rfl | hc
          · norm_num [fitKey, indPos]
          · simp at hc)
      ⟨indPos, by norm_num, by norm_num [fitKey, indPos]⟩
      le_rfl (by norm_num [r0])⟩

theorem fitness_evaluated (ind : Individual) (inst : Instance) :
    Evaluated (fitness ind inst) :=
  ⟨compute_cost ind inst, rfl, rfl⟩

theorem pairStep_evaluated (ga : GeneticAlgorithm) (pop : List Individual)
    (r : RState) (a b : Individual) (r' : RState)
    (h : pairStep ga pop r = some ((a, b), r')) : Evaluated a ∧ Evaluated b := by
  rw [pairStep] at h
  simp only [Option.bind_eq_some, Option.some.injEq, Prod.mk.injEq] at h
  obtain ⟨p1, hp1, p2, hp2, pc, hpc, m1, hm1, m2, hm2, ⟨ha, hb⟩, hr⟩ := h
  exact ⟨ha ▸ fitness_evaluated _ _, hb ▸ fitness_evaluated _ _⟩

theorem buildOffspring_mem (ga : GeneticAlgorithm) (pop : List Individual) :
    ∀ (fuel : Nat) (newPop : List Individual) (r : RState)
      (out : List Individual) (r' : RState),
      buildOffspring ga pop fuel newPop r = some (out, r') →
      ∀ x ∈ out, x ∈ newPop ∨ Evaluated x := by
  intro fuel
  induction fuel with
  | zero =>
    intro newPop r out r' h x hx
    rw [buildOffspring] at h
    by_cases hlt : newPop.length < ga.pop_size
    · rw [if_pos hlt] at h
      exact absurd h (by simp)
    · rw [if_neg hlt] at h
      simp only [Option.some.injEq, Prod.mk.injEq] at h
      obtain ⟨h1, _⟩ := h
      rw [← h1] at hx
      exact Or.inl hx
  | succ fuel ih =>
    intro newPop r out r' h x hx
    rw [buildOffspring] at h
    by_cases hlt : newPop.length < ga.pop_size
    · rw [if_pos hlt] at h
      rcases Option.bind_eq_some.mp h with ⟨p, hp, hrec⟩
      rcases ih (newPop ++ [p.1.1, p.1.2]) p.2 out r' hrec x hx with hmem | he
      · rcases List.mem_append.mp hmem with hmem | hmem
        · exact Or.inl hmem
        · right
          have hpair := pairStep_evaluated ga pop r p.1.1 p.1.2 p.2
            (by rw [hp])
          simp only [List.mem_cons, List.not_mem_nil, or_false] at hmem
          rcases hmem with rfl | rfl
          · exact hpair.1
          · exact hpair.2
      · exact Or.inr he
    · rw [if_neg hlt] at h
      simp only [Option.some.injEq, Prod.mk.injEq] at h
      obtain ⟨h1, _⟩ := h
      rw [← h1] at hx
      exact Or.inl hx

theorem init_population_evaluated (ga : GeneticAlgorithm) :
    ∀ (n : Nat) (r : RState) (pop : List Individual) (r' : RState),
      init_population ga n r = some (pop, r') → ∀ ind ∈ pop, Evaluated ind := by
  intro n
  induction n with
  | zero =>
    intro r pop r' h ind hind
    simp only [init_population, Option.some.injEq, Prod.mk.injEq] at h
    obtain ⟨h1, _⟩ := h
    rw [← h1] at hind
    simp at hind
  | succ n ih =>
    intro r pop r' h ind hind
    rw [init_population] at h
    rcases Option.bind_eq_some.mp h with ⟨p, hp, hmap⟩
    rcases Option.map_eq_some'.mp hmap with ⟨q, hq, hfin⟩
    simp only [Prod.mk.injEq] at hfin
    obtain ⟨hfin1, _⟩ := hfin
    rw [← hfin1] at hind
    rcases List.mem_cons.mp hind with rfl | hind
    · exact fitness_evaluated _ _
    · exact ih p.2 q.1 q.2 (by rw [hq]) ind hind

theorem evaluated_lt_cost {b cb : Individual} (hb : Evaluated b)
    (hcb : Evaluated cb) (h : fitKey b < fitKey cb) :
    ∃ c c', b.cost = some c ∧ cb.cost = some c' ∧ c' < c := by
  obtain ⟨c, hc, hf⟩ := hb
  obtain ⟨c', hc', hf'⟩ := hcb
  refine ⟨c, c', hc, hc', ?_⟩
  rw [fitKey, hf, fitKey, hf'] at h
  simp only [Option.getD_some] at h
  by_contra hcc
  push_neg at hcc
  rcases Nat.lt_or_ge c c' with hlt | hge
  · exact absurd h (not_lt.mpr (le_of_lt (one_div_one_add_strict_anti hlt)))
  · have : c = c' := by omega
    subst this
    exact lt_irrefl _ h

theorem runStep_shape (ga : GeneticAlgorithm) (s : LoopState) (r : RState)
    (s' : LoopState) (r' : RState) (h : runStep ga s r = some (s', r')) :
    s'.bestFitH = s.bestFitH ++ [s'.best.fitness] ∧
    s'.avgFitH = s.avgFitH ++ [meanQ (s'.population.map fitKey)] ∧
    s'.bestCostH = s.bestCostH ++ [s'.best.cost] ∧
    s'.divH = s.divH ++ [calculate_diversity s'.population] := by
  rw [runStep] at h
  simp only [Option.bind_eq_some, Option.some.injEq, Prod.mk.injEq] at h
  obtain ⟨p, hp, cb, hcb, hs, hr⟩ := h
  rw [← hs]
  exact ⟨rfl, rfl, rfl, rfl⟩

theorem runStep_best (ga : GeneticAlgorithm) (s : LoopState) (r : RState)
    (s' : LoopState) (r' : RState) (h : runStep ga s r = some (s', r'))
    (hball : Evaluated s.best) :
    Evaluated s'.best ∧
    ∃ c c', s.best.cost = some c ∧ s'.best.cost = some c' ∧ c' ≤ c := by
  rw [runStep] at h
  simp only [Option.bind_eq_some, Option.some.injEq, Prod.mk.injEq] at h
  obtain ⟨p, hp, cb, hcb, hs, hr⟩ := h
  have hcbmem : cb ∈ p.1.take ga.pop_size := pythonMax_mem fitKey _ cb hcb
  have hcbmem' : cb ∈ p.1 := List.take_subset _ _ hcbmem
  have hcbe : Evaluated cb := by
    rcases buildOffspring_mem ga s.population ga.pop_size [s.best] r p.1 p.2
        (by rw [hp]) cb hcbmem' with hm | he
    · simp only [List.mem_cons, List.not_mem_nil, or_false] at hm
      rw [hm]
      exact hball
    · exact he
  rw [← hs]
  by_cases hcmp : fitKey s.best < fitKey cb
  · simp only [if_pos hcmp]
    obtain ⟨c, c', hc, hc', hlt⟩ := evaluated_lt_cost hball hcbe hcmp
    exact ⟨hcbe, c, c', hc, hc', le_of_lt hlt⟩
  · simp only [if_neg hcmp]
    obtain ⟨c, hc, hf⟩ := hball
    exact ⟨⟨c, hc, hf⟩, c, c, hc, hc, le_refl c⟩

theorem runLoop_mono (ga : GeneticAlgorithm) :
    ∀ (fuel gen : Nat) (s : LoopState) (r : RState) (res : RunResult),
      runLoop ga fuel gen s r = some res →
      Evaluated s.best →
      List.Chain' (fun x y => ∃ a b, x = some a ∧ y = some b ∧ b ≤ a) s.bestCostH →
      (∀ x ∈ s.bestCostH.getLast?,
        ∃ a c, x = some a ∧ s.best.cost = some c ∧ c ≤ a) →
      List.Chain' (fun x y => ∃ a b, x = some a ∧ y = some b ∧ b ≤ a)
        res.best_cost_history := by
  intro fuel
  induction fuel with
  | zero =>
    intro gen s r res h hb hch hlast
    simp only [runLoop, Option.some.injEq] at h
    rw [← h]
    exact hch
  | succ fuel ih =>
    intro gen s r res h hb hch hlast
    rw [runLoop] at h
    rcases Option.bind_eq_some.mp h with ⟨p, hstep, hrest⟩
    obtain ⟨hbest', c, c', hc, hc', hle⟩ :=
      runStep_best ga s r p.1 p.2 (by rw [hstep]) hb
    obtain ⟨_, _, hcostH, _⟩ := runStep_shape ga s r p.1 p.2 (by rw [hstep])
    have hch' : List.Chain' (fun x y => ∃ a b, x = some a ∧ y = some b ∧ b ≤ a)
        p.1.bestCostH := by
      rw [hcostH]
      apply List.chain'_append.mpr
      refine ⟨hch, by simp, ?_⟩
      intro x hx y hy
      simp only [List.head?_cons, Option.mem_def, Option.some.injEq] at hy
      obtain ⟨a, cc, hxa, hcc, hca⟩ := hlast x hx
      have hccc : cc = c := by
        rw [hc] at hcc
        exact (Option.some.inj hcc).symm
      refine ⟨a, c', hxa, ?_, ?_⟩
      · rw [← hy, hc']
      · omega
    have hlast' : ∀ x ∈ p.1.bestCostH.getLast?,
        ∃ a cc, x = some a ∧ p.1.best.cost = some cc ∧ cc ≤ a := by
      rw [hcostH]
      intro x hx
      rw [List.getLast?_concat] at hx
      simp only [Option.mem_def, Option.some.injEq] at hx
      refine ⟨c', c', ?_, hc', le_refl c'⟩
      rw [← hx, hc']
    by_cases hstag : 200 < p.1.stag
    · rw [if_pos hstag] at hrest
      simp only [Option.some.injEq] at hrest
      rw [← hrest]
      exact hch'
    · rw [if_neg hstag] at hrest
      exact ih (gen + 1) p.1 p.2 res hrest hbest' hch' hlast'

theorem runLoop_lengths (ga : GeneticAlgorithm) :
    ∀ (fuel gen : Nat) (s : LoopState) (r : RState) (res : RunResult),
      runLoop ga fuel gen s r = some res →
      s.bestFitH.length = gen → s.avgFitH.length = gen →
      s.bestCostH.length = gen → s.divH.length = gen →
      res.generations ≤ gen + fuel ∧
      res.best_fitness_history.length = res.generations ∧
      res.avg_fitness_history.length = res.generations ∧
      res.best_cost_history.length = res.generations ∧
      res.diversity_history.length = res.generations := by
  intro fuel
  induction fuel with
  | zero =>
    intro gen s r res h h1 h2 h3 h4
    simp only [runLoop, Option.some.injEq] at h
    rw [← h]
    simp only [mkResult]
    exact ⟨by omega, h1, h2, h3, h4⟩
  | succ fuel ih =>
    intro gen s r res h h1 h2 h3 h4
    rw [runLoop] at h
    rcases Option.bind_eq_some.mp h with ⟨p, hstep, hrest⟩
    obtain ⟨e1, e2, e3, e4⟩ := runStep_shape ga s r p.1 p.2 (by rw [hstep])
    have l1 : p.1.bestFitH.length = gen + 1 := by rw [e1]; simp [h1]
    have l2 : p.1.avgFitH.length = gen + 1 := by rw [e2]; simp [h2]
    have l3 : p.1.bestCostH.length = gen + 1 := by rw [e3]; simp [h3]
    have l4 : p.1.divH.length = gen + 1 := by rw [e4]; simp [h4]
    by_cases hstag : 200 < p.1.stag
    · rw [if_pos hstag] at hrest
      simp only [Option.some.injEq] at hrest
      rw [← hrest]
      simp only [mkResult]
      exact ⟨by omega, l1, l2, l3, l4⟩
    · rw [if_neg hstag] at hrest
      obtain ⟨g1, g2, g3, g4, g5⟩ := ih (gen + 1) p.1 p.2 res hrest l1 l2 l3 l4
      exact ⟨by omega, g2, g3, g4, g5⟩

/-- C1: for every successful run of a freshly constructed engine the
recorded best-cost history is monotonically non-increasing: the incumbent
best individual is reinserted into every generation's population and
replaced only by a strictly fitter — hence strictly cheaper —
individual. -/
theorem best_cost_history_monotone (ga : GeneticAlgorithm) (r : RState)
    (res : RunResult) (hh : ga.best_cost_history = [])
    (hr : run ga r = some res) :
    ∀ g, g + 1 < res.best_cost_history.length →
      ∃ a b, res.best_cost_history.getD g none = some a ∧
        res.best_cost_history.getD (g + 1) none = some b ∧ b ≤ a := by
  rw [run] at hr
  rcases Option.bind_eq_some.mp hr with ⟨p, hinit, hr2⟩
  rcases Option.bind_eq_some.mp hr2 with ⟨best, hbest, hloop⟩
  have hbe : Evaluated best :=
    init_population_evaluated ga ga.pop_size r p.1 p.2 (by rw [hinit]) best
      (pythonMax_mem fitKey p.1 best hbest)
  have hchain := runLoop_mono ga ga.max_generations 0
    ⟨p.1, best, 0, ga.best_fitness_history, ga.avg_fitness_history,
      ga.best_cost_history, ga.diversity_history⟩ p.2 res hloop hbe
    (by simp only [hh]; exact List.chain'_nil)
    (by simp [hh])
  intro g hg
  have hlen : g < res.best_cost_history.length - 1 := by omega
  obtain ⟨a, b, ha, hb, hab⟩ := List.chain'_iff_get.mp hchain g hlen
  refine ⟨a, b, ?_, ?_, hab⟩
  · rw [List.getD_eq_getElem _ _ (by omega)]
    simpa using ha
  · rw [List.getD_eq_getElem _ _ (by omega)]
    simpa using hb

/-- Witness for C1: the five-generation run of ga1 and its first two
best-cost entries. -/
theorem best_cost_history_monotone_witness :
    ∃ a b, res1.best_cost_history.getD 0 none = some a ∧
      res1.best_cost_history.getD 1 none = some b ∧ b ≤ a :=
  best_cost_history_monotone ga1 r0 res1 rfl
    (by with_unfolding_all decide) 0 (by decide)

/-- C3 counterexample: the stagnation-free run of ga1 (population size 1,
max_generations 5) returns generations = 5 as claimed but histories of
length 5, not 6: generation-0 statistics are never recorded. -/
theorem run_history_length_counterexample :
    run ga1 r0 = some res1 ∧ ga1.max_generations = 5 ∧ res1.generations = 5 ∧
    res1.best_fitness_history.length = 5 ∧
    res1.avg_fitness_history.length = 5 ∧
    res1.best_cost_history.length = 5 ∧
    res1.diversity_history.length = 5 ∧ (5 : Nat) ≠ 6 := by
  exact ⟨by with_unfolding_all decide, rfl, rfl, rfl, rfl, rfl, rfl, by decide⟩

/-- C3 amended: each history receives exactly one entry per generation
run and generation 0 is never recorded: every successful run of a freshly
constructed engine returns history lengths equal to its generation count,
which never exceeds max_generations; the concrete stagnation-free run
with max_generations = 5 returns generations = 5 with histories of
length 5, and the concrete never-improving run with max_generations = 250
stops through the stagnation rule at generation 201 < 250. -/
theorem run_termination_amended :
    (∀ (ga : GeneticAlgorithm) (r : RState) (res : RunResult),
      ga.best_fitness_history = [] → ga.avg_fitness_history = [] →
      ga.best_cost_history = [] → ga.diversity_history = [] →
      run ga r = some res →
      res.generations ≤ ga.max_generations ∧
      res.best_fitness_history.length = res.generations ∧
      res.avg_fitness_history.length = res.generations ∧
      res.best_cost_history.length = res.generations ∧
      res.diversity_history.length = res.generations) ∧
    (run ga1 r0).map RunResult.generations = some 5 ∧
    ((run ga1 r0).map fun res => res.best_cost_history.length) = some 5 ∧
    ga2.max_generations = 250 ∧
    (run ga2 r0).map RunResult.generations = some 201 ∧ (201 : Nat) < 250 := by
  refine ⟨?_, by with_unfolding_all decide, by with_unfolding_all decide, rfl,
    by with_unfolding_all decide, by decide⟩
  intro ga r res h1 h2 h3 h4 hr
  rw [run] at hr
  rcases Option.bind_eq_some.mp hr with ⟨p, hinit, hr2⟩
  rcases Option.bind_eq_some.mp hr2 with ⟨best, hbest, hloop⟩
  obtain ⟨g1, g2, g3, g4, g5⟩ := runLoop_lengths ga ga.max_generations 0
    ⟨p.1, best, 0, ga.best_fitness_history, ga.avg_fitness_history,
      ga.best_cost_history, ga.diversity_history⟩ p.2 res hloop
    (by simp [h1]) (by simp [h2]) (by simp [h3]) (by simp [h4])
  exact ⟨by omega, g2, g3, g4, g5⟩

/-- Witness for the C3 amended theorem at the concrete ga1 run. -/
theorem run_termination_amended_witness :
    res1.generations ≤ ga1.max_generations ∧
    res1.best_fitness_history.length = res1.generations ∧
    res1.avg_fitness_history.length = res1.generations ∧
    res1.best_cost_history.length = res1.generations ∧
    res1.diversity_history.length = res1.generations :=
  run_termination_amended.1 ga1 r0 res1 rfl rfl rfl rfl
    (by with_unfolding_all decide)

end AlgoGen
